import Mathlib

/-!
Shallow embedding of the KWayMerge repository (k-way stable merge).

Source files embedded here:
- src/include/merge.h, function merge_arrays
- src/include/detail/first_round_merge.h, function detail::first_round_merge
  (an identical copy of this code is inlined in merge_arrays, section 5)
- src/include/detail/iterative_merge.h, function detail::iterative_merge
  (an identical copy of this code is inlined in merge_arrays, section 6)
- src/include/detail/get_container_size.h, function detail::get_container_size

Modelling conventions:
- an STL container of T becomes List T; the outer collection becomes
  List (List T); the comparator Comp becomes comp : T -> T -> Bool;
- iterators into the output buffer become Nat offsets; since every write of
  the algorithm places merged blocks contiguously at accumulated offsets, the
  post-first-round buffer state is represented by the list of runs (the
  sub-ranges delimited by consecutive separators) and the buffer content is
  the concatenation of the runs;
- fallible iterator operations are made explicit: dereferencing the
  past-the-end iterator of the input collection (which the C++ loop in
  section 5.2 of merge.h performs when the number of arrays is odd, because
  the while condition tests a stale right iterator before the body recomputes
  right = std::next(left)) yields none.
-/

/-- Embedding of std::merge (used in merge.h line 169 and
first_round_merge.h line 91): copies from the second range only when its
front is strictly smaller under comp, so ties take the element of the first
range. -/
def cppMerge (comp : α → α → Bool) : List α → List α → List α
  | [], ys => ys
  | xs, [] => xs
  | x :: xs, y :: ys =>
    if comp y x then y :: cppMerge comp (x :: xs) ys
    else x :: cppMerge comp xs (y :: ys)

/-- A list is sorted under the strict comparator comp when no element is
strictly smaller than its predecessor (the std::is_sorted criterion). -/
def isSortedBy (comp : α → α → Bool) : List α → Bool
  | [] => true
  | [_] => true
  | x :: y :: t => !comp y x && isSortedBy comp (y :: t)

/-- Helper predicate: x may be placed in front of list l, that is the head of
l (when it exists) is not strictly smaller than x under comp. -/
def headLeB (comp : α → α → Bool) (x : α) : List α → Bool
  | [] => true
  | y :: _ => !comp y x

/-- Embedding of the pairing loop of the first merge round
(merge.h lines 157-176, first_round_merge.h lines 78-98).

The C++ state is (left, right) where right is only reassigned inside the
loop body; the loop condition left != end && right != end therefore tests a
stale right. The embedding carries the suffix of the input collection that
starts at left, and a flag telling whether the stale right currently equals
the end iterator (after any completed iteration the stale right points at
the second member of the merged pair, never at end, so the recursive call
passes false; the flag is true at entry only when the collection has at most
one member, because the initial right is std::next(begin)).

Returns the list of merged blocks together with the suffix at the final
left, or none when the body dereferences the end iterator: when only one
unpaired array remains, the body still executes, sets right = next(left) =
end and evaluates right->begin(). -/
def first_round_loop (comp : α → α → Bool) :
    List (List α) → Bool → Option (List (List α) × List (List α))
  | lrest, true => some ([], lrest)
  | [], _ => some ([], [])
  | [_], false => none
  | left :: right :: rest, false =>
    (first_round_loop comp rest false).map
      (fun p => (cppMerge comp left right :: p.1, p.2))

/-- Embedding of detail::first_round_merge (first_round_merge.h lines
60-110); the identical code is inlined in merge_arrays (merge.h section 5).
Runs the pairing loop, then, when the number of arrays is odd, copies the
array at the final left verbatim as its own block (first_round_merge.h
lines 103-107). Returns the list of sorted runs written contiguously into
the output buffer; the separator list of the C++ code is recovered from the
runs by separators_of. -/
def first_round_merge (comp : α → α → Bool) (arrays : List (List α)) :
    Option (List (List α)) :=
  match first_round_loop comp arrays (decide (arrays.length ≤ 1)) with
  | none => none
  | some (blocks, lrest) =>
    if arrays.length % 2 = 1 then
      match lrest with
      | last :: _ => some (blocks ++ [last])
      | [] => none
    else
      some blocks

/-- The separator positions delimiting a list of contiguous runs: the offset
of the start of each run, plus the end offset of the buffer. This recovers
the content of the std::forward_list of iterators that the C++ code
maintains (first separator = output.begin() = start offset, last separator =
output.end() = total length). -/
def separators_of (start : Nat) : List (List α) → List Nat
  | [] => [start]
  | r :: rs => start :: separators_of (start + r.length) rs

/-- The separator list as returned by detail::first_round_merge, as offsets
into the output buffer. -/
def first_round_separators (comp : α → α → Bool) (arrays : List (List α)) :
    Option (List Nat) :=
  (first_round_merge comp arrays).map (separators_of 0)

/-- Fuel-driven ceiling base-2 logarithm, satisfying for n >= 2 the
recurrence ceil_log2 n = 1 + ceil_log2 (ceil (n / 2)) with values 0 at
n = 0 and n = 1. -/
def ceil_log2_aux : Nat → Nat → Nat
  | 0, _ => 0
  | _ + 1, 0 => 0
  | _ + 1, 1 => 0
  | fuel + 1, n + 2 => 1 + ceil_log2_aux fuel ((n + 3) / 2)

/-- Embedding of static_cast of size_t of std::ceil (std::log2 n)
(merge.h line 199, iterative_merge.h line 54), the ceiling of the base-2
logarithm, for the arguments n >= 1 that the k >= 3 path produces. -/
def ceil_log2 (n : Nat) : Nat := ceil_log2_aux n n

/-- merge.h line 119: number_of_lists_to_merge / 2 +
number_of_lists_to_merge % 2, the number of runs after the first round. -/
def block_number_after_first_round (k : Nat) : Nat := k / 2 + k % 2

/-- merge.h line 120: block_number_after_first_round - 1, the number of
interior separators after the first round. -/
def block_separator_number_after_first_round (k : Nat) : Nat :=
  block_number_after_first_round k - 1

/-- merge.h line 199: the pre-computed number of merging passes of the
iterative phase, ceil (log2 (block_separator_number_after_first_round)). -/
def merging_pass_number (k : Nat) : Nat :=
  ceil_log2 (block_separator_number_after_first_round k)

/-- One merging pass of the iterative phase (merge.h lines 201-226,
iterative_merge.h lines 56-81), viewed on the runs delimited by consecutive
separators: each triple (left, middle, right) of consecutive separators
fuses the adjacent runs (left, middle) and (middle, right) with
std::inplace_merge (stable, identical ordering semantics to std::merge) and
erases the middle separator; the walk then continues from right, so the
next triple starts at the previous right boundary and a trailing unpaired
run is left untouched. -/
def merge_pass (comp : α → α → Bool) : List (List α) → List (List α)
  | r1 :: r2 :: rest => cppMerge comp r1 r2 :: merge_pass comp rest
  | runs => runs

/-- The iterative phase (merge.h lines 195-230, iterative_merge.h): apply
merge_pass the pre-computed number of times. -/
def iterative_merge (comp : α → α → Bool) : Nat → List (List α) → List (List α)
  | 0, runs => runs
  | n + 1, runs => iterative_merge comp n (merge_pass comp runs)

/-- The action of one merging pass on the separator list itself
(iterative_merge.h lines 65-81): for each triple (left, middle, right) of
consecutive entries, the middle entry is erased with erase_after and the
walk resumes at right. -/
def sep_pass : List α → List α
  | l :: _ :: r :: rest => l :: sep_pass (r :: rest)
  | s => s

/-- The trace of triples (left, middle, right) processed by one merging
pass over a separator list (iterative_merge.h lines 65-69). -/
def pass_triples : List α → List (α × α × α)
  | l :: m :: r :: rest => (l, m, r) :: pass_triples (r :: rest)
  | _ => []

/-- Embedding of merge_arrays (merge.h lines 58-234).

Section 2 sizes the output buffer to the total number of elements; section 4
returns it directly for k = 0, copies the single array for k = 1, and runs
one direct std::merge for k = 2; for k >= 3, section 5 runs the first
pairing round and section 6 runs merging_pass_number iterative passes over
the separator list, after which the buffer (the concatenation of the
remaining runs) is returned. A none result records that the C++ code
dereferenced an invalid iterator. -/
def merge_arrays (comp : α → α → Bool) : List (List α) → Option (List α)
  | [] => some []
  | [a] => some a
  | [a, b] => some (cppMerge comp a b)
  | arrays =>
    match first_round_merge comp arrays with
    | none => none
    | some runs =>
      some (iterative_merge comp (merging_pass_number arrays.length) runs).flatten

/-- Modelled from the spec: the standard stable two-way merge used as the
reference point of the refinement claim about k = 2. At each step the two
fronts are compared; the strictly smaller front is emitted, and if the two
fronts compare equal the element from the first sequence is emitted
first. -/
def spec_two_way_merge (comp : α → α → Bool) : List α → List α → List α
  | [], ys => ys
  | xs, [] => xs
  | x :: xs, y :: ys =>
    if comp x y then x :: spec_two_way_merge comp xs (y :: ys)
    else if comp y x then y :: spec_two_way_merge comp (x :: xs) ys
    else x :: spec_two_way_merge comp xs (y :: ys)

/-- Strict ordering on Bool (false before true), used as a concrete
comparator in witnesses. -/
def boolLt (a b : Bool) : Bool := !a && b

/-- C9: merge_arrays applied to an empty collection returns the empty
sequence, and applied to a single-sequence collection returns an exact
element-by-element copy of that sequence (merge.h lines 124-128). -/
theorem merge_arrays_empty_and_singleton {α : Type _} (comp : α → α → Bool)
    (a : List α) :
    merge_arrays comp [] = some [] ∧ merge_arrays comp [a] = some a :=
  ⟨rfl, rfl⟩

/-- C1 (code bug): the claim says the returned sequence is always sorted,
but for k = 4 the iterative phase runs ceil (log2 (ceil (k / 2) - 1)) = 0
merging passes, so the two runs produced by the first round are never fused:
on the sorted inputs [3], [4], [1], [2] the code returns [3, 4, 1, 2],
which is not sorted. -/
theorem merge_arrays_k4_returns_unsorted :
    merge_arrays Nat.blt [[3], [4], [1], [2]] = some [3, 4, 1, 2] ∧
    isSortedBy Nat.blt [3, 4, 1, 2] = false := by
  constructor
  · simp [merge_arrays, first_round_merge, first_round_loop, cppMerge,
      merging_pass_number, block_separator_number_after_first_round,
      block_number_after_first_round, ceil_log2, ceil_log2_aux,
      iterative_merge]
  · rfl

/-- C3 (code bug): the claim says the iterative phase performs
ceil (log2 r) passes with r = ceil (k / 2) the number of runs after the
first round, but merge.h line 199 computes ceil (log2 (r - 1)): at k = 4
the code performs 0 passes where the claimed formula gives 1, so the
separator list never shrinks to 2 entries. -/
theorem merging_pass_number_k4_is_zero_not_one :
    merging_pass_number 4 = 0 ∧
    ceil_log2 (block_number_after_first_round 4) = 1 := by
  constructor <;> rfl

/-- C4 (code bug): for odd k the pairing loop re-enters with a stale right
iterator, recomputes right = std::next(left) = arrays.end() and
dereferences it, instead of stopping after the floor (k / 2) full pairs:
at k = 3 the first round already fails on the last, unpaired sequence. -/
theorem first_round_merge_k3_derefs_end :
    first_round_merge Nat.blt [[1], [2], [3]] = none :=
  rfl

/-- C5 (code bug): the stability guarantee quantifies over all collections
of sorted inputs, but for odd k the first round dereferences the end
iterator of the input collection, so no output sequence exists in which
equivalent elements could appear in (sequence, position) order: at k = 3
with three equivalent elements the merge produces no result. -/
theorem merge_arrays_k3_equal_elements_no_result :
    merge_arrays Nat.blt [[1], [1], [1]] = none :=
  rfl

/-- C6 (code bug): the claim says the result length always equals the sum
of the input lengths, but for odd k >= 3 the first-round loop dereferences
the end iterator of the input collection (and the trailing copy then
overruns the pre-sized separator list), so no length-N result is produced:
at k = 5 the merge produces no result. -/
theorem merge_arrays_k5_no_result :
    merge_arrays Nat.blt [[1], [2], [3], [4], [5]] = none :=
  rfl

/-- C7 (code bug): the claim says the first round always produces a
separator list with ceil (k / 2) + 1 entries delimited by the output start
and end, but for odd k >= 3 the first round dereferences the end iterator
before the last separator entry could be written (and the trailing copy
advances the separator cursor past the last node of the pre-sized list):
at k = 3 no separator list is produced. -/
theorem first_round_separators_k3_no_result :
    first_round_separators Nat.blt [[1, 2], [3], [4]] = none :=
  rfl

/-- Under an asymmetric comparator (the strict-weak-ordering precondition of
std::merge), the source merge and the spec-modelled stable two-way merge
agree: both emit the front of the first range unless the front of the
second range is strictly smaller. -/
theorem cppMerge_eq_spec_two_way {α : Type _} (comp : α → α → Bool)
    (hasym : ∀ a b, comp a b = true → comp b a = false) :
    ∀ A B, cppMerge comp A B = spec_two_way_merge comp A B := by
  intro A
  induction A with
  | nil => intro B; cases B <;> simp [cppMerge, spec_two_way_merge]
  | cons x xs ihx =>
    intro B
    induction B with
    | nil => simp [cppMerge, spec_two_way_merge]
    | cons y ys ihy =>
      simp only [cppMerge, spec_two_way_merge]
      cases hyx : comp y x with
      | true =>
        have hxy : comp x y = false := hasym y x hyx
        simp [hxy, ihy]
      | false =>
        cases hxy : comp x y with
        | true => simp [ihx]
        | false => simp [ihx]

/-- C2: for sequences A and B sorted under an asymmetric comparator comp
(std::merge requires a strict weak ordering), merge_arrays on the
two-element collection [A, B] returns exactly the standard stable two-way
merge of A and B, emitting the element of A first on ties
(merge.h lines 129-134). -/
theorem merge_arrays_pair_is_stable_two_way_merge {α : Type _}
    (comp : α → α → Bool)
    (hasym : ∀ a b, comp a b = true → comp b a = false)
    (A B : List α)
    (hA : isSortedBy comp A = true) (hB : isSortedBy comp B = true) :
    merge_arrays comp [A, B] = some (spec_two_way_merge comp A B) := by
  have h := cppMerge_eq_spec_two_way comp hasym A B
  simp [merge_arrays, h]

/-- Witness for the k = 2 refinement theorem at a concrete input. -/
theorem merge_arrays_pair_is_stable_two_way_merge_witness :
    merge_arrays boolLt [[false, true], [false, true]] =
      some (spec_two_way_merge boolLt [false, true] [false, true]) :=
  merge_arrays_pair_is_stable_two_way_merge boolLt (by decide)
    [false, true] [false, true] (by decide) (by decide)

/-- One separator pass never empties a nonempty separator list. -/
theorem sep_pass_ne_nil {α : Type _} (s : List α) (h : s ≠ []) :
    sep_pass s ≠ [] := by
  match s with
  | [] => exact absurd rfl h
  | [a] => simp [sep_pass]
  | [a, b] => simp [sep_pass]
  | a :: b :: c :: t => simp [sep_pass]

/-- One separator pass keeps the first entry of the list. -/
theorem sep_pass_head {α : Type _} (s : List α) :
    (sep_pass s).head? = s.head? := by
  induction s using sep_pass.induct with
  | case1 l m r rest ih => simp [sep_pass]
  | case2 s h =>
    match s, h with
    | [], _ => rfl
    | [a], _ => rfl
    | [a, b], _ => rfl
    | a :: b :: c :: t, h => exact absurd rfl (h a b c t)

/-- One separator pass keeps the last entry of the list. -/
theorem sep_pass_getLast {α : Type _} (s : List α) :
    (sep_pass s).getLast? = s.getLast? := by
  induction s using sep_pass.induct with
  | case1 l m r rest ih =>
    have hne : sep_pass (r :: rest) ≠ [] := sep_pass_ne_nil _ (by simp)
    calc (sep_pass (l :: m :: r :: rest)).getLast?
        = (l :: sep_pass (r :: rest)).getLast? := by simp [sep_pass]
      _ = (sep_pass (r :: rest)).getLast? := by
            match hs : sep_pass (r :: rest), hne with
            | x :: xs, _ => simp
      _ = (r :: rest).getLast? := ih
      _ = (l :: m :: r :: rest).getLast? := by simp
  | case2 s h =>
    match s, h with
    | [], _ => rfl
    | [a], _ => rfl
    | [a, b], _ => rfl
    | a :: b :: c :: t, h => exact absurd rfl (h a b c t)

/-- Each processed triple erases exactly one entry: the surviving entries
and the processed triples together account for the whole list. -/
theorem sep_pass_length_plus_triples {α : Type _} (s : List α) :
    (sep_pass s).length + (pass_triples s).length = s.length := by
  induction s using sep_pass.induct with
  | case1 l m r rest ih =>
    simp only [sep_pass, pass_triples, List.length_cons] at ih ⊢
    omega
  | case2 s h =>
    match s, h with
    | [], _ => rfl
    | [a], _ => rfl
    | [a, b], _ => rfl
    | a :: b :: c :: t, h => exact absurd rfl (h a b c t)

/-- The number of triples processed in one pass over n separators is
(n - 1) / 2, that is the number of full adjacent pairs of runs. -/
theorem pass_triples_length {α : Type _} (s : List α) :
    (pass_triples s).length = (s.length - 1) / 2 := by
  induction s using pass_triples.induct with
  | case1 l m r rest ih =>
    simp only [pass_triples, List.length_cons] at ih ⊢
    omega
  | case2 s h =>
    match s, h with
    | [], _ => simp [pass_triples]
    | [a], _ => simp [pass_triples]
    | [a, b], _ => simp [pass_triples]
    | a :: b :: c :: t, h => exact absurd rfl (h a b c t)

/-- Consecutive triples processed in one pass are adjacent and disjoint:
each next triple starts at the right boundary of the previous one. -/
theorem pass_triples_chain {α : Type _} (s : List α) :
    List.Chain' (fun t u : α × α × α => u.1 = t.2.2) (pass_triples s) := by
  induction s using pass_triples.induct with
  | case1 l m r rest ih =>
    match rest with
    | [] => simp [pass_triples]
    | [a] => simp [pass_triples]
    | a :: b :: t =>
      simp only [pass_triples] at ih ⊢
      exact List.Chain'.cons rfl ih
  | case2 s h =>
    match s, h with
    | [], _ => exact List.chain'_nil
    | [a], _ => exact List.chain'_nil
    | [a, b], _ => exact List.chain'_nil
    | a :: b :: c :: t, h => exact absurd rfl (h a b c t)

/-- C10: in one merging pass over a separator list with at least the two
boundary entries, each processed triple erases exactly one interior
separator (its middle entry), the first and last entries are never erased
and at least 2 entries always remain, and the triples processed in the
pass are pairwise disjoint, each next triple beginning at the right
boundary of the previous one (iterative_merge.h lines 65-81,
merge.h lines 210-226). -/
theorem sep_pass_mechanics {α : Type _} (s : List α) (h : 2 ≤ s.length) :
    (sep_pass s).head? = s.head? ∧
    (sep_pass s).getLast? = s.getLast? ∧
    2 ≤ (sep_pass s).length ∧
    (sep_pass s).length + (pass_triples s).length = s.length ∧
    (pass_triples s).length = (s.length - 1) / 2 ∧
    List.Chain' (fun t u : α × α × α => u.1 = t.2.2) (pass_triples s) := by
  refine ⟨sep_pass_head s, sep_pass_getLast s, ?_,
    sep_pass_length_plus_triples s, pass_triples_length s,
    pass_triples_chain s⟩
  have h1 := sep_pass_length_plus_triples s
  have h2 := pass_triples_length s
  omega

/-- Witness for the separator-pass mechanics theorem at a concrete
separator list. -/
theorem sep_pass_mechanics_witness :
    (sep_pass [0, 1, 2, 3]).head? = [0, 1, 2, 3].head? ∧
    (sep_pass [0, 1, 2, 3]).getLast? = [0, 1, 2, 3].getLast? ∧
    2 ≤ (sep_pass [0, 1, 2, 3]).length ∧
    (sep_pass [0, 1, 2, 3]).length + (pass_triples [0, 1, 2, 3]).length =
      [0, 1, 2, 3].length ∧
    (pass_triples [0, 1, 2, 3]).length = ([0, 1, 2, 3].length - 1) / 2 ∧
    List.Chain' (fun t u : Nat × Nat × Nat => u.1 = t.2.2)
      (pass_triples [0, 1, 2, 3]) :=
  sep_pass_mechanics [0, 1, 2, 3] (by decide)

/-- Sortedness of a cons splits into the head condition and sortedness of
the tail. -/
theorem isSortedBy_cons {α : Type _} (comp : α → α → Bool) (x : α)
    (l : List α) :
    isSortedBy comp (x :: l) = (headLeB comp x l && isSortedBy comp l) := by
  cases l <;> rfl

/-- The head of a merge is the head of one of the two inputs, so an element
placeable in front of both inputs is placeable in front of the merge. -/
theorem cppMerge_headLe {α : Type _} (comp : α → α → Bool) (z : α) :
    ∀ a b, headLeB comp z a = true → headLeB comp z b = true →
      headLeB comp z (cppMerge comp a b) = true := by
  intro a b ha hb
  match a, b with
  | [], b => simpa [cppMerge] using hb
  | x :: xs, [] => simpa [cppMerge] using ha
  | x :: xs, y :: ys =>
    simp only [cppMerge]
    cases hyx : comp y x with
    | true => simpa [headLeB] using hb
    | false => simpa [headLeB] using ha

/-- Merging two sorted lists with an asymmetric comparator yields a sorted
list (correctness of std::merge at the level needed for the run
invariant). -/
theorem cppMerge_sorted {α : Type _} (comp : α → α → Bool)
    (hasym : ∀ a b, comp a b = true → comp b a = false) :
    ∀ A, isSortedBy comp A = true → ∀ B, isSortedBy comp B = true →
      isSortedBy comp (cppMerge comp A B) = true := by
  intro A
  induction A with
  | nil => intro _ B hB; simpa [cppMerge] using hB
  | cons x xs ihx =>
    intro hA B
    induction B with
    | nil => intro _; simpa [cppMerge] using hA
    | cons y ys ihy =>
      intro hB
      have hA2 := hA
      have hB2 := hB
      rw [isSortedBy_cons, Bool.and_eq_true] at hA2 hB2
      simp only [cppMerge]
      cases hyx : comp y x with
      | true =>
        rw [if_pos rfl, isSortedBy_cons, Bool.and_eq_true]
        constructor
        · apply cppMerge_headLe
          · simp [headLeB, hasym y x hyx]
          · exact hB2.1
        · exact ihy hB2.2
      | false =>
        rw [if_neg Bool.false_ne_true, isSortedBy_cons, Bool.and_eq_true]
        constructor
        · apply cppMerge_headLe
          · exact hA2.1
          · simp [headLeB, hyx]
        · exact ihx hA2.2 (y :: ys) hB

/-- When the pairing loop completes, every merged block is sorted and every
array of the remaining suffix is sorted, provided the traversed arrays are
sorted and the comparator is asymmetric. -/
theorem first_round_loop_sorted {α : Type _} (comp : α → α → Bool)
    (hasym : ∀ a b, comp a b = true → comp b a = false) :
    ∀ (lrest : List (List α)) (flag : Bool)
      (blocks lfinal : List (List α)),
      (∀ a ∈ lrest, isSortedBy comp a = true) →
      first_round_loop comp lrest flag = some (blocks, lfinal) →
      (∀ b ∈ blocks, isSortedBy comp b = true) ∧
      (∀ a ∈ lfinal, isSortedBy comp a = true) := by
  intro lrest flag
  induction lrest, flag using first_round_loop.induct comp with
  | case1 lrest =>
    intro blocks lfinal hin heq
    simp only [first_round_loop, Option.some.injEq, Prod.mk.injEq] at heq
    obtain ⟨h1, h2⟩ := heq
    subst h1; subst h2
    exact ⟨by simp, hin⟩
  | case2 flag hflag =>
    intro blocks lfinal hin heq
    match flag, heq with
    | false, heq =>
      simp only [first_round_loop, Option.some.injEq, Prod.mk.injEq] at heq
      obtain ⟨h1, h2⟩ := heq
      subst h1; subst h2
      exact ⟨by simp, by simp⟩
  | case3 a =>
    intro blocks lfinal hin heq
    simp [first_round_loop] at heq
  | case4 left right rest ih =>
    intro blocks lfinal hin heq
    cases hrec : first_round_loop comp rest false with
    | none =>
      simp only [first_round_loop, hrec, Option.map_none'] at heq
      exact Option.noConfusion heq
    | some p =>
      obtain ⟨blocks0, lfinal0⟩ := p
      simp only [first_round_loop, hrec, Option.map_some', Option.some.injEq,
        Prod.mk.injEq] at heq
      obtain ⟨h1, h2⟩ := heq
      subst h1; subst h2
      have hleft : isSortedBy comp left = true := hin left (by simp)
      have hright : isSortedBy comp right = true := hin right (by simp)
      have hrest : ∀ a ∈ rest, isSortedBy comp a = true := by
        intro a ha; exact hin a (by simp [ha])
      obtain ⟨hblocks0, hfinal0⟩ := ih blocks0 lfinal0 hrest hrec
      refine ⟨?_, hfinal0⟩
      intro b hb
      rcases List.mem_cons.mp hb with hb | hb
      · subst hb
        exact cppMerge_sorted comp hasym left hleft right hright
      · exact hblocks0 b hb

/-- Every run produced by the first merge round is sorted when the input
arrays are sorted and the comparator is asymmetric. -/
theorem first_round_merge_sorted {α : Type _} (comp : α → α → Bool)
    (hasym : ∀ a b, comp a b = true → comp b a = false)
    (arrays : List (List α))
    (hin : ∀ a ∈ arrays, isSortedBy comp a = true)
    (runs : List (List α))
    (hfr : first_round_merge comp arrays = some runs) :
    ∀ r ∈ runs, isSortedBy comp r = true := by
  unfold first_round_merge at hfr
  cases hloop : first_round_loop comp arrays (decide (arrays.length ≤ 1)) with
  | none => rw [hloop] at hfr; exact absurd hfr (by simp)
  | some p =>
    obtain ⟨blocks, lfinal⟩ := p
    rw [hloop] at hfr
    obtain ⟨hblocks, hfinal⟩ :=
      first_round_loop_sorted comp hasym arrays _ blocks lfinal hin hloop
    by_cases hodd : arrays.length % 2 = 1
    · simp only [hodd, if_pos] at hfr
      match lfinal, hfinal, hfr with
      | last :: lrest2, hfinal, hfr =>
        simp only [Option.some.injEq] at hfr
        subst hfr
        intro r hr
        rcases List.mem_append.mp hr with hr | hr
        · exact hblocks r hr
        · rcases List.mem_singleton.mp hr with rfl
          exact hfinal r (by simp)
    · simp only [hodd, if_neg, if_false] at hfr
      simp only [Option.some.injEq] at hfr
      subst hfr
      exact hblocks

/-- One merging pass preserves sortedness of every run. -/
theorem merge_pass_sorted {α : Type _} (comp : α → α → Bool)
    (hasym : ∀ a b, comp a b = true → comp b a = false) :
    ∀ runs : List (List α), (∀ r ∈ runs, isSortedBy comp r = true) →
      ∀ r ∈ merge_pass comp runs, isSortedBy comp r = true := by
  intro runs
  induction runs using merge_pass.induct comp with
  | case1 r1 r2 rest ih =>
    intro hin r hr
    simp only [merge_pass] at hr
    rcases List.mem_cons.mp hr with hr | hr
    · subst hr
      exact cppMerge_sorted comp hasym r1 (hin r1 (by simp)) r2
        (hin r2 (by simp))
    · exact ih (fun a ha => hin a (by simp [ha])) r hr
  | case2 runs hshape =>
    intro hin r hr
    match runs, hshape, hr with
    | [], _, hr => exact absurd hr (by simp [merge_pass])
    | [a], _, hr =>
      have : r = a := by simpa [merge_pass] using hr
      subst this
      exact hin r (by simp)
    | r1 :: r2 :: rest, hshape, _ => exact absurd rfl (hshape r1 r2 rest)

/-- Any number of merging passes preserves sortedness of every run. -/
theorem iterative_merge_sorted {α : Type _} (comp : α → α → Bool)
    (hasym : ∀ a b, comp a b = true → comp b a = false) :
    ∀ (n : Nat) (runs : List (List α)),
      (∀ r ∈ runs, isSortedBy comp r = true) →
      ∀ r ∈ iterative_merge comp n runs, isSortedBy comp r = true := by
  intro n
  induction n with
  | zero => intro runs hin; simpa [iterative_merge] using hin
  | succ n ih =>
    intro runs hin
    simp only [iterative_merge]
    exact ih (merge_pass comp runs) (merge_pass_sorted comp hasym runs hin)

/-- C8: whenever the first merge round completes on sorted inputs (with an
asymmetric comparator, the strict-weak-ordering precondition), every run
delimited by a pair of consecutive separator entries is internally sorted,
and this invariant is preserved by every merging pass of the iterative
phase: it holds after any number n of passes (merge.h lines 201-228,
iterative_merge.h lines 56-83). -/
theorem runs_sorted_invariant {α : Type _} (comp : α → α → Bool)
    (hasym : ∀ a b, comp a b = true → comp b a = false)
    (arrays : List (List α))
    (hin : ∀ a ∈ arrays, isSortedBy comp a = true)
    (runs : List (List α))
    (hfr : first_round_merge comp arrays = some runs)
    (n : Nat) :
    ∀ r ∈ iterative_merge comp n runs, isSortedBy comp r = true :=
  iterative_merge_sorted comp hasym n runs
    (first_round_merge_sorted comp hasym arrays hin runs hfr)

/-- Witness for the sorted-run invariant theorem at a concrete even-k
input: the single run remaining after one merging pass is sorted. -/
theorem runs_sorted_invariant_witness :
    isSortedBy boolLt [false, false, true, true] = true :=
  runs_sorted_invariant boolLt (by decide)
    [[false], [true], [false], [true]] (by decide)
    [[false, true], [false, true]]
    (by simp [first_round_merge, first_round_loop, cppMerge, boolLt]) 1
    [false, false, true, true]
    (by simp [iterative_merge, merge_pass, cppMerge, boolLt])

/-- std::merge writes exactly as many elements as its two inputs hold. -/
theorem cppMerge_length {α : Type _} (comp : α → α → Bool) :
    ∀ A B : List α, (cppMerge comp A B).length = A.length + B.length := by
  intro A
  induction A with
  | nil => intro B; simp [cppMerge]
  | cons x xs ihx =>
    intro B
    induction B with
    | nil => simp [cppMerge]
    | cons y ys ihy =>
      simp only [cppMerge]
      cases hyx : comp y x with
      | true =>
        rw [if_pos rfl]
        simp only [List.length_cons, ihy]
        omega
      | false =>
        rw [if_neg Bool.false_ne_true]
        simp only [List.length_cons, ihx (y :: ys)]
        omega

/-- A separator list is never empty. -/
theorem separators_of_ne_nil {α : Type _} (start : Nat)
    (runs : List (List α)) : separators_of start runs ≠ [] := by
  cases runs <;> simp [separators_of]

/-- A separator list over n runs has n + 1 entries: one start position per
run plus the terminal end marker. -/
theorem separators_of_length {α : Type _} :
    ∀ (runs : List (List α)) (start : Nat),
      (separators_of start runs).length = runs.length + 1 := by
  intro runs
  induction runs with
  | nil => intro start; rfl
  | cons r rs ih => intro start; simp [separators_of, ih]

/-- The first separator is the start offset of the buffer region. -/
theorem separators_of_head {α : Type _} (start : Nat)
    (runs : List (List α)) :
    (separators_of start runs).head? = some start := by
  cases runs <;> rfl

/-- The last separator is the end offset of the buffer region: the start
plus the total number of elements in the runs. -/
theorem separators_of_getLast {α : Type _} :
    ∀ (runs : List (List α)) (start : Nat),
      (separators_of start runs).getLast? =
        some (start + (runs.map List.length).sum) := by
  intro runs
  induction runs with
  | nil => intro start; simp [separators_of]
  | cons r rs ih =>
    intro start
    have hne := separators_of_ne_nil (start + r.length) rs
    rw [separators_of]
    match hs : separators_of (start + r.length) rs, hne with
    | x :: xs, _ =>
      rw [List.getLast?_cons_cons]
      rw [← hs, ih]
      simp
      omega

/-- Fidelity of the two views of a merging pass: fusing adjacent runs with
merge_pass transforms the separator offsets exactly as sep_pass transforms
the separator list (erasing the middle entry of each processed triple). -/
theorem separators_of_merge_pass {α : Type _} (comp : α → α → Bool) :
    ∀ (runs : List (List α)) (start : Nat),
      separators_of start (merge_pass comp runs) =
        sep_pass (separators_of start runs) := by
  intro runs
  induction runs using merge_pass.induct comp with
  | case1 r1 r2 rest ih =>
    intro start
    cases rest with
    | nil =>
      simp [merge_pass, separators_of, sep_pass, cppMerge_length,
        Nat.add_assoc]
    | cons r3 rs =>
      have hstep : separators_of start (r1 :: r2 :: r3 :: rs) =
          start :: (start + r1.length) ::
            separators_of (start + r1.length + r2.length) (r3 :: rs) := by
        simp [separators_of]
      rw [merge_pass, separators_of, hstep]
      have hcons := separators_of_ne_nil (start + r1.length + r2.length)
        (r3 :: rs)
      match hs : separators_of (start + r1.length + r2.length) (r3 :: rs),
          hcons with
      | x :: xs, _ =>
        rw [sep_pass, ← hs, ← ih (start + r1.length + r2.length)]
        have : start + (cppMerge comp r1 r2).length =
            start + r1.length + r2.length := by
          rw [cppMerge_length]; omega
        rw [this]
  | case2 runs hshape =>
    intro start
    match runs, hshape with
    | [], _ => rfl
    | [r], _ => rfl
    | r1 :: r2 :: rest, hshape => exact absurd rfl (hshape r1 r2 rest)

/-- For an even number of arrays the pairing loop completes without
touching the end iterator: it merges exactly half as many blocks and
preserves the total element count. -/
theorem first_round_loop_even {α : Type _} (comp : α → α → Bool) :
    ∀ lrest : List (List α), lrest.length % 2 = 0 →
      ∃ blocks, first_round_loop comp lrest false = some (blocks, []) ∧
        blocks.length = lrest.length / 2 ∧
        (blocks.map List.length).sum = (lrest.map List.length).sum := by
  intro lrest
  induction lrest using merge_pass.induct comp with
  | case1 l r rest ih =>
    intro heven
    have hrest : rest.length % 2 = 0 := by
      simp only [List.length_cons] at heven; omega
    obtain ⟨blocks0, hloop0, hlen0, hsum0⟩ := ih hrest
    refine ⟨cppMerge comp l r :: blocks0, ?_, ?_, ?_⟩
    · rw [first_round_loop, hloop0, Option.map_some']
    · simp only [List.length_cons, hlen0]; omega
    · simp only [List.map_cons, List.sum_cons, hsum0, cppMerge_length]
      omega
  | case2 lrest hshape =>
    intro heven
    match lrest, hshape, heven with
    | [], _, _ => exact ⟨[], rfl, by simp, rfl⟩
    | [a], _, heven => simp at heven
    | l :: r :: rest, hshape, _ => exact absurd rfl (hshape l r rest)

/-- For an even number of arrays the first merge round completes and
returns ceil (k / 2) = k / 2 runs holding all the input elements. -/
theorem first_round_merge_even {α : Type _} (comp : α → α → Bool)
    (arrays : List (List α)) (heven : arrays.length % 2 = 0) :
    ∃ blocks, first_round_merge comp arrays = some blocks ∧
      blocks.length = arrays.length / 2 ∧
      (blocks.map List.length).sum = (arrays.map List.length).sum := by
  match arrays with
  | [] => exact ⟨[], rfl, by simp, rfl⟩
  | [a] => simp at heven
  | a :: b :: rest =>
    have hflag : decide ((a :: b :: rest).length ≤ 1) = false := by
      simp
    obtain ⟨blocks, hloop, hlen, hsum⟩ :=
      first_round_loop_even comp (a :: b :: rest) heven
    refine ⟨blocks, ?_, hlen, hsum⟩
    simp only [List.length_cons] at heven
    simp [first_round_merge, hflag, hloop]
    omega

/-- For an even number k of arrays the separator list produced by the
first round has exactly k / 2 + 1 entries, its first entry is the start of
the output buffer and its last entry is the end of the output buffer (the
property claimed for all k >= 3, which odd k breaks). -/
theorem first_round_separators_even {α : Type _} (comp : α → α → Bool)
    (arrays : List (List α)) (heven : arrays.length % 2 = 0) :
    ∃ seps, first_round_separators comp arrays = some seps ∧
      seps.length = arrays.length / 2 + 1 ∧
      seps.head? = some 0 ∧
      seps.getLast? = some ((arrays.map List.length).sum) := by
  obtain ⟨blocks, hfr, hlen, hsum⟩ := first_round_merge_even comp arrays heven
  refine ⟨separators_of 0 blocks, ?_, ?_, ?_, ?_⟩
  · rw [first_round_separators, hfr, Option.map_some']
  · rw [separators_of_length, hlen]
  · exact separators_of_head 0 blocks
  · rw [separators_of_getLast, hsum]; simp

/-- One merging pass preserves the total number of elements in the runs. -/
theorem merge_pass_sum {α : Type _} (comp : α → α → Bool) :
    ∀ runs : List (List α),
      ((merge_pass comp runs).map List.length).sum =
        (runs.map List.length).sum := by
  intro runs
  induction runs using merge_pass.induct comp with
  | case1 r1 r2 rest ih =>
    simp only [merge_pass, List.map_cons, List.sum_cons, ih, cppMerge_length]
    omega
  | case2 runs hshape =>
    match runs, hshape with
    | [], _ => rfl
    | [r], _ => rfl
    | r1 :: r2 :: rest, hshape => exact absurd rfl (hshape r1 r2 rest)

/-- The iterative phase preserves the total number of elements. -/
theorem iterative_merge_sum {α : Type _} (comp : α → α → Bool) :
    ∀ (n : Nat) (runs : List (List α)),
      ((iterative_merge comp n runs).map List.length).sum =
        (runs.map List.length).sum := by
  intro n
  induction n with
  | zero => intro runs; rfl
  | succ n ih =>
    intro runs
    rw [iterative_merge, ih, merge_pass_sum]

/-- For every even k the merge returns a sequence whose length is the sum
of the input lengths (the property claimed for all k, which odd k
breaks). -/
theorem merge_arrays_length_even {α : Type _} (comp : α → α → Bool)
    (arrays : List (List α)) (heven : arrays.length % 2 = 0)
    (out : List α) (hout : merge_arrays comp arrays = some out) :
    out.length = (arrays.map List.length).sum := by
  match arrays with
  | [] =>
    simp only [merge_arrays, Option.some.injEq] at hout
    subst hout
    rfl
  | [a] => simp at heven
  | [a, b] =>
    simp only [merge_arrays, Option.some.injEq] at hout
    subst hout
    simp [cppMerge_length]
  | a :: b :: c :: rest =>
    obtain ⟨blocks, hfr, hlen, hsum⟩ :=
      first_round_merge_even comp (a :: b :: c :: rest) heven
    simp only [merge_arrays, hfr, Option.some.injEq] at hout
    subst hout
    rw [List.length_flatten, iterative_merge_sum, hsum]
